import Mathlib

/-!
Shallow embedding of the go-diff repository (package diff, the
Objects/ObjectsF implementation with templates and a path stack).

Go values are embedded as the inductive type GoVal below: structs carry
their declared type name and an ordered field list, maps are association
lists of key/value pairs (a nil Go map and an empty Go map behave
identically under MapKeys/MapIndex, so both embed as the empty list),
slices/arrays are element lists, and everything else is an Atom.
Pointers are embedded as an address paired with the pointed-to atom.

A nil *reflect.Value (the "this side does not exist" marker of the Go
code) is embedded as Option GoVal with none for nil.  A Go runtime panic
(dereferencing a nil *reflect.Value or a nil reflect.Type) is embedded as
the error value DiffErr.nilPanic: the Go program does not return in that
case, and the embedding records that the traversal aborted abnormally.

The text/template collaborator is embedded as a small substitution
engine: Parse produces a chunk list (literal text and field actions),
and Execute substitutes the three Diff fields, failing on any other
field name exactly as text/template does at execution time.  Note that
Go's template.Parse accepts an action naming an unknown field; the
failure only occurs at Execute time.
-/

namespace GoDiff

/-- Atomic (non-container) Go values reachable in this development.
Pointers carry an address and the pointed-to atom. -/
inductive Atom where
  | bool (b : Bool)
  | str (s : String)
  | int (n : Int)
  | ptr (addr : Nat) (v : Atom)
  deriving DecidableEq, Repr

/-- Go interface equality (the != operator of diffAtom): structural on
numbers, strings and booleans; address identity on pointers; values of
different dynamic types are unequal. -/
def goEq : Atom → Atom → Bool
  | .bool b1, .bool b2 => b1 == b2
  | .str s1, .str s2 => s1 == s2
  | .int n1, .int n2 => n1 == n2
  | .ptr a1 _, .ptr a2 _ => a1 == a2
  | _, _ => false

/-- reflect.DeepEqual restricted to atoms: pointers are deeply equal when
they are identical or point to deeply equal values. -/
def deepEqual : Atom → Atom → Bool
  | .ptr a1 v1, .ptr a2 v2 => a1 == a2 || deepEqual v1 v2
  | a, b => goEq a b

/-- formatInterface of the source: strings are rendered with %q (quoted);
every other atom keeps its default %v string form.  The escaping that %q
performs inside the string body is not needed for any value in this
development. -/
def formatInterface : Atom → String
  | .str s => "\"" ++ s ++ "\""
  | .bool b => toString b
  | .int n => toString n
  | .ptr addr _ => "0x" ++ toString addr

/-- Embedded Go values: records, associative containers, sequences and
atoms.  Slices and arrays are both embedded as seq; named non-struct
types are not modelled, so typeName is empty for non-structs. -/
inductive GoVal where
  | atom (a : Atom)
  | struct (name : String) (fields : List (String × GoVal))
  | map (entries : List (Atom × GoVal))
  | seq (elems : List GoVal)

/-- reflect Kind().String() of an embedded value. -/
def kindStr : GoVal → String
  | .struct _ _ => "struct"
  | .map _ => "map"
  | .seq _ => "slice"
  | .atom (.bool _) => "bool"
  | .atom (.str _) => "string"
  | .atom (.int _) => "int"
  | .atom (.ptr _ _) => "ptr"

/-- reflect Type.Name() of an embedded value: the declared name for a
struct, empty for the (unnamed) composite and atomic types modelled
here. -/
def typeName : GoVal → String
  | .struct n _ => n
  | _ => ""

/-- formatInterface applied to whatever reaches diffAtom.  Containers can
only reach diffAtom through interface-typed fields of mismatched dynamic
kind; no input of this development does, so their string form is just a
kind marker. -/
def formatValue : GoVal → String
  | .atom a => formatInterface a
  | v => kindStr v

/-- Go interface equality at diffAtom.  The present side is always an
atom there; a container on the other side has a different dynamic type
and compares unequal. -/
def goEqVal : GoVal → GoVal → Bool
  | .atom a, .atom b => goEq a b
  | _, _ => false

/-! Template engine (the text/template collaborator). -/

/-- A compiled template: literal text interleaved with field actions. -/
inductive Chunk where
  | lit (s : String)
  | field (name : String)
  deriving DecidableEq, Repr

/-- Prepend a literal character, merging with a leading literal chunk. -/
def consLit (c : Char) : List Chunk → List Chunk
  | .lit s :: rest => .lit (String.singleton c ++ s) :: rest
  | cs => .lit (String.singleton c) :: cs

/-- Characters allowed in a field identifier. -/
def identChar (c : Char) : Bool := c.isAlphanum

/-- Template scanner.  An action is a brace-brace, dot, identifier,
brace-brace sequence; anything else is literal text; a malformed action
is a parse error.  Fuel is the remaining input length plus one. -/
def parseChunks : Nat → List Char → Option (List Chunk)
  | 0, _ => none
  | _ + 1, [] => some []
  | fuel + 1, '{' :: '{' :: '.' :: rest =>
      match rest.span identChar with
      | ([], _) => none
      | (ident, more) =>
        match more with
        | '}' :: '}' :: rest2 =>
            (parseChunks fuel rest2).map (fun cs => Chunk.field (String.mk ident) :: cs)
        | _ => none
  | fuel + 1, c :: rest => (parseChunks fuel rest).map (consLit c)

/-- template.Parse of the source: compile a format string. -/
def parseTemplate (s : String) : Option (List Chunk) :=
  parseChunks (s.length + 1) s.toList

/-- The Diff data handed to a template (Name, Before, After). -/
structure DiffData where
  Name : String
  Before : String
  After : String

/-- Field resolution against DiffData: exactly the three field names
resolve; any other name is an execution error, as in text/template. -/
def lookupField : String → DiffData → Option String
  | "Name", d => some d.Name
  | "Before", d => some d.Before
  | "After", d => some d.After
  | _, _ => none

/-- Errors of the embedded program.  notObj, kindMismatch and
nameMismatch are the returned validation errors; parseFail and execFail
are the returned template errors; nilPanic marks a Go runtime panic (the
program crashes rather than returning); fuelOut is the recursion budget
of the embedding and never occurs on the budgets objects supplies. -/
inductive DiffErr where
  | notObj (arg : String) (kind : String)
  | kindMismatch (k1 k2 : String)
  | nameMismatch (n1 n2 : String)
  | parseFail
  | execFail (field : String)
  | nilPanic
  | fuelOut
  deriving DecidableEq, Repr

/-- Template.Execute: substitute fields into the chunk list, failing on
the first unknown field. -/
def renderChunks : List Chunk → DiffData → Except DiffErr String
  | [], _ => .ok ""
  | .lit s :: rest, d => (renderChunks rest d).map (fun out => s ++ out)
  | .field f :: rest, d =>
      match lookupField f d with
      | none => .error (.execFail f)
      | some v => (renderChunks rest d).map (fun out => v ++ out)

/-- The three compiled templates held by the differ. -/
structure Tmpl where
  change : List Chunk
  add : List Chunk
  delete : List Chunk

/-! Key alignment (alignMapKeys and the val flag pair). -/

/-- The two presence flags of the source's val type. -/
structure val where
  before : Bool
  after : Bool
  deriving DecidableEq, Repr

/-- MapIndex: first entry whose key is Go-equal to the probe. -/
def lookupK {β : Type} : List (Atom × β) → Atom → Option β
  | [], _ => none
  | kv :: rest, k => if goEq k kv.1 then some kv.2 else lookupK rest k

/-- Go map assignment: overwrite the value at an existing Go-equal key
(the stored key is kept), or append a fresh entry. -/
def setKey {β : Type} : List (Atom × β) → Atom → β → List (Atom × β)
  | [], k, v => [(k, v)]
  | kv :: rest, k, v =>
      if goEq k kv.1 then (kv.1, v) :: rest else kv :: setKey rest k v

/-- Go map read with zero value for a missing key. -/
def getVal (m : List (Atom × val)) (k : Atom) : val :=
  (lookupK m k).getD ⟨false, false⟩

/-- Key membership under Go key equality. -/
def hasKey {β : Type} (m : List (Atom × β)) (k : Atom) : Bool :=
  (lookupK m k).isSome

/-- First loop of alignMapKeys: every before-key is written with flags
(true, false). -/
def insertBefore : List (Atom × val) → List (Atom × GoVal) → List (Atom × val)
  | m, [] => m
  | m, kv :: rest => insertBefore (setKey m kv.1 ⟨true, false⟩) rest

/-- Second loop of alignMapKeys: every after-key gets its after flag set,
keeping the before flag it may already have. -/
def markAfter : List (Atom × val) → List (Atom × GoVal) → List (Atom × val)
  | m, [] => m
  | m, kv :: rest => markAfter (setKey m kv.1 ⟨(getVal m kv.1).before, true⟩) rest

/-- alignMapKeys of the source.  Go iterates the resulting map in an
unspecified order; the embedding fixes insertion order (before-keys
first, then fresh after-keys), which is one admissible order. -/
def alignMapKeys (m1 m2 : List (Atom × GoVal)) : List (Atom × val) :=
  markAfter (insertBefore [] m1) m2

/-! Child enumeration for the three container shapes. -/

/-- Path segment of a struct field. -/
def fieldSeg (n : String) : String := "." ++ n

/-- Both-present struct traversal: the field count and names come from
the before side, the after side is read positionally; a shorter after
side would make reflect's Field(i) panic. -/
def zipFields : List (String × GoVal) → List (String × GoVal) →
    Option (List (String × Option GoVal × Option GoVal))
  | [], _ => some []
  | _ :: _, [] => none
  | f1 :: r1, f2 :: r2 =>
      (zipFields r1 r2).map (fun cs => (fieldSeg f1.1, some f1.2, some f2.2) :: cs)

/-- Struct children when only the before side exists. -/
def leftFields (fs : List (String × GoVal)) : List (String × Option GoVal × Option GoVal) :=
  fs.map (fun f => (fieldSeg f.1, some f.2, none))

/-- Struct children when only the after side exists. -/
def rightFields (fs : List (String × GoVal)) : List (String × Option GoVal × Option GoVal) :=
  fs.map (fun f => (fieldSeg f.1, none, some f.2))

/-- Path segment of a sequence index. -/
def seqSeg (i : Nat) : String := "[" ++ toString i ++ "]"

/-- diffSequence's loop bounds: indices zero up to the longer length,
an index beyond one side's length leaving that side absent. -/
def seqChildren (l1 l2 : List GoVal) : List (String × Option GoVal × Option GoVal) :=
  (List.range (max l1.length l2.length)).map (fun i => (seqSeg i, l1.get? i, l2.get? i))

/-- Path segment of a map key, via formatInterface (string keys quoted). -/
def keySeg (k : Atom) : String := "[" ++ formatInterface k ++ "]"

/-- diffMap's per-key children, driven by the aligned flags with the
source's case order: before-flag false, then after-flag false, then both
present. -/
def mapChildren (m1 m2 : List (Atom × GoVal)) : List (String × Option GoVal × Option GoVal) :=
  (alignMapKeys m1 m2).map (fun kf =>
    match kf.2.before, kf.2.after with
    | false, _ => (keySeg kf.1, none, lookupK m2 kf.1)
    | _, false => (keySeg kf.1, lookupK m1 kf.1, none)
    | _, _ => (keySeg kf.1, lookupK m1 kf.1, lookupK m2 kf.1))

/-! The recursive differ. -/

/-- Run the recursive differ over a child list: push the segment,
recurse, pop, concatenating the emitted changes and aborting on the
first error, exactly as the source loops do. -/
def diffChildren
    (rec : List String → Option GoVal → Option GoVal → Except DiffErr (List String))
    (path : List String) :
    List (String × Option GoVal × Option GoVal) → Except DiffErr (List String)
  | [] => .ok []
  | c :: rest => do
      let r ← rec (path ++ [c.1]) c.2.1 c.2.2
      let rs ← diffChildren rec path rest
      pure (r ++ rs)

/-- diffAtom of the source: absent before gives an added leaf, absent
after a deleted leaf, interface-unequal values a changed leaf, equal
values nothing.  Both sides absent cannot be reached (the dispatcher
would already have panicked). -/
def diffAtom (t : Tmpl) (path : List String) :
    Option GoVal → Option GoVal → Except DiffErr (List String)
  | none, none => .error .nilPanic
  | none, some v2 =>
      (renderChunks t.add ⟨String.join path, "", formatValue v2⟩).map (fun s => [s])
  | some v1, none =>
      (renderChunks t.delete ⟨String.join path, formatValue v1, ""⟩).map (fun s => [s])
  | some v1, some v2 =>
      if goEqVal v1 v2 then .ok []
      else
        (renderChunks t.change ⟨String.join path, formatValue v1, formatValue v2⟩).map
          (fun s => [s])

/-- diffStruct of the source.  The mismatched-shape fallthrough models
reflect panicking on Field/NumField of a non-struct operand. -/
def diffStruct
    (rec : List String → Option GoVal → Option GoVal → Except DiffErr (List String))
    (path : List String) (o1 o2 : Option GoVal) : Except DiffErr (List String) :=
  match o1, o2 with
  | some (.struct _ fs1), none => diffChildren rec path (leftFields fs1)
  | none, some (.struct _ fs2) => diffChildren rec path (rightFields fs2)
  | some (.struct _ fs1), some (.struct _ fs2) =>
      match zipFields fs1 fs2 with
      | none => .error .nilPanic
      | some cs => diffChildren rec path cs
  | _, _ => .error .nilPanic

/-- diffSequence of the source.  It reads v1.Len() and v2.Len() without
a nil guard, so a sequence node that exists on only one side
dereferences a nil *reflect.Value and panics; the fallthrough branch
records that crash. -/
def diffSequence
    (rec : List String → Option GoVal → Option GoVal → Except DiffErr (List String))
    (path : List String) (o1 o2 : Option GoVal) : Except DiffErr (List String) :=
  match o1, o2 with
  | some (.seq l1), some (.seq l2) => diffChildren rec path (seqChildren l1 l2)
  | _, _ => .error .nilPanic

/-- diffMap of the source.  alignMapKeys calls MapKeys on both operands
without a nil guard, so a map node that exists on only one side panics;
the fallthrough branch records that crash.  (A nil Go map reached
through a field that exists on both sides is a valid map value and
embeds as an empty entry list, which is handled normally.) -/
def diffMap
    (rec : List String → Option GoVal → Option GoVal → Except DiffErr (List String))
    (path : List String) (o1 o2 : Option GoVal) : Except DiffErr (List String) :=
  match o1, o2 with
  | some (.map m1), some (.map m2) => diffChildren rec path (mapChildren m1 m2)
  | _, _ => .error .nilPanic

/-- The four traversal shapes. -/
inductive Kind where
  | kstruct
  | kmap
  | kseq
  | katom
  deriving DecidableEq, Repr

/-- Shape classification of a value. -/
def kindOf : GoVal → Kind
  | .struct _ _ => .kstruct
  | .map _ => .kmap
  | .seq _ => .kseq
  | .atom _ => .katom

/-- The dispatch kind: the before side's shape when present, otherwise
the after side's; both absent means the dispatcher itself dereferences
nil. -/
def presentKind : Option GoVal → Option GoVal → Option Kind
  | some v, _ => some (kindOf v)
  | none, some v => some (kindOf v)
  | none, none => none

/-- diff of the source: dispatch on the present side's shape.  The Nat
argument is a recursion budget of the embedding; objects always supplies
a sufficient budget, so fuelOut never occurs from the public entry
points. -/
def diff (t : Tmpl) : Nat → List String → Option GoVal → Option GoVal → Except DiffErr (List String)
  | 0, _, _, _ => .error .fuelOut
  | fuel + 1, path, o1, o2 =>
      match presentKind o1 o2 with
      | none => .error .nilPanic
      | some .kstruct => diffStruct (fun p a b => diff t fuel p a b) path o1 o2
      | some .kmap => diffMap (fun p a b => diff t fuel p a b) path o1 o2
      | some .kseq => diffSequence (fun p a b => diff t fuel p a b) path o1 o2
      | some .katom => diffAtom t path o1 o2

/-! Top-level validation and the public operations. -/

/-- The accepted top-level kinds. -/
def objectKinds : List String := ["struct", "array", "slice", "map"]

/-- isObj of the source.  A Go nil argument has a nil reflect.Type, and
Kind() on it panics before any error can be returned, which the none
branches record. -/
def isObj : Option GoVal → Option GoVal → Except DiffErr Unit
  | none, _ => .error .nilPanic
  | some v1, o2 =>
      if objectKinds.contains (kindStr v1) then
        match o2 with
        | none => .error .nilPanic
        | some v2 =>
            if objectKinds.contains (kindStr v2) then .ok ()
            else .error (.notObj ("after") (kindStr v2))
      else .error (.notObj ("before") (kindStr v1))

/-- sameKind of the source. -/
def sameKind : Option GoVal → Option GoVal → Except DiffErr Unit
  | some v1, some v2 =>
      if kindStr v1 = kindStr v2 then .ok ()
      else .error (.kindMismatch (kindStr v1) (kindStr v2))
  | _, _ => .error .nilPanic

/-- sameNamedType of the source: reflect Name() equality; every
non-struct modelled here is unnamed, so this is the record name check. -/
def sameNamedType : Option GoVal → Option GoVal → Except DiffErr Unit
  | some v1, some v2 =>
      if typeName v1 = typeName v2 then .ok ()
      else .error (.nameMismatch (typeName v1) (typeName v2))
  | _, _ => .error .nilPanic

/-- The Format type of the source. -/
structure Format where
  Change : String
  Add : String
  Delete : String

/-- Default changed template. -/
def DefaultChange : String :=
  "\x7b\x7b.Name\x7d\x7d changed from \x7b\x7b.Before\x7d\x7d to \x7b\x7b.After\x7d\x7d"

/-- Default added template. -/
def DefaultAdd : String := "\x7b\x7b.Name\x7d\x7d added \x7b\x7b.After\x7d\x7d"

/-- Default deleted template. -/
def DefaultDelete : String := "\x7b\x7b.Name\x7d\x7d deleted \x7b\x7b.Before\x7d\x7d"

/-- template.New(...).Parse(...) with its error plumbed through. -/
def compileTemplate (s : String) : Except DiffErr (List Chunk) :=
  match parseTemplate s with
  | none => .error .parseFail
  | some cs => .ok cs

mutual

/-- Structural size of a value, used only to compute a sufficient
recursion budget. -/
def goSize : GoVal → Nat
  | .atom _ => 1
  | .struct _ fs => 1 + fieldsSize fs
  | .map es => 1 + entriesSize es
  | .seq vs => 1 + elemsSize vs

def fieldsSize : List (String × GoVal) → Nat
  | [] => 0
  | f :: fs => 1 + goSize f.2 + fieldsSize fs

def entriesSize : List (Atom × GoVal) → Nat
  | [] => 0
  | kv :: es => 1 + goSize kv.2 + entriesSize es

def elemsSize : List GoVal → Nat
  | [] => 0
  | v :: vs => 1 + goSize v + elemsSize vs

end

/-- Size of an optional value (absent side contributes nothing). -/
def optSize : Option GoVal → Nat
  | none => 0
  | some v => goSize v

/-- Recursion budget supplied to the differ: strictly larger than the
structural size of either argument. -/
def fuelFor (o1 o2 : Option GoVal) : Nat := optSize o1 + optSize o2 + 1

/-- objects of the source: validate shapes, compile the three templates
in change/add/delete order, then run the traversal from the empty
path. -/
def objects (format : Format) (before after : Option GoVal) : Except DiffErr (List String) := do
  isObj before after
  sameKind before after
  sameNamedType before after
  let tc ← compileTemplate format.Change
  let ta ← compileTemplate format.Add
  let td ← compileTemplate format.Delete
  diff ⟨tc, ta, td⟩ (fuelFor before after) [] before after

/-- Objects of the source: the default templates. -/
def Objects (before after : Option GoVal) : Except DiffErr (List String) :=
  objects ⟨DefaultChange, DefaultAdd, DefaultDelete⟩ before after

/-- ObjectsF of the source: empty format strings fall back to the
defaults. -/
def ObjectsF (format : Format) (before after : Option GoVal) : Except DiffErr (List String) :=
  objects
    ⟨if format.Change = "" then DefaultChange else format.Change,
     if format.Add = "" then DefaultAdd else format.Add,
     if format.Delete = "" then DefaultDelete else format.Delete⟩
    before after

/-! Properties of Go interface equality on atoms: it is an equivalence
relation (reflexive even on pointers, since a pointer equals itself). -/

theorem goEq_refl (a : Atom) : goEq a a = true := by
  cases a <;> simp [goEq]

theorem goEq_comm (a b : Atom) : goEq a b = goEq b a := by
  cases a <;> cases b <;> simp [goEq] <;> exact eq_comm

theorem goEq_trans {a b c : Atom} (h1 : goEq a b = true) (h2 : goEq b c = true) :
    goEq a c = true := by
  cases a <;> cases b <;> cases c <;> simp_all [goEq]

theorem goEq_congr {k1 k2 x : Atom} (h : goEq k1 k2 = true) : goEq k1 x = goEq k2 x := by
  by_cases h1 : goEq k1 x = true
  · have h2 : goEq k2 x = true := goEq_trans (by rw [goEq_comm]; exact h) h1
    rw [h1, h2]
  · have h2 : goEq k2 x ≠ true := fun hx => h1 (goEq_trans h hx)
    simp only [Bool.not_eq_true] at h1 h2
    rw [h1, h2]

theorem goEq_congr_r {k1 k2 x : Atom} (h : goEq k1 k2 = true) : goEq x k1 = goEq x k2 := by
  rw [goEq_comm x k1, goEq_comm x k2]
  exact goEq_congr h

/-! Association-list lemmas describing Go map reads and writes. -/

theorem lookupK_cons {β : Type} (kv : Atom × β) (rest : List (Atom × β)) (k : Atom) :
    lookupK (kv :: rest) k = if goEq k kv.1 then some kv.2 else lookupK rest k := rfl

theorem hasKey_cons {β : Type} (kv : Atom × β) (rest : List (Atom × β)) (k : Atom) :
    hasKey (kv :: rest) k = (goEq k kv.1 || hasKey rest k) := by
  simp only [hasKey, lookupK_cons]
  by_cases h : goEq k kv.1 = true <;> simp [h]

theorem lookupK_setKey {β : Type} (m : List (Atom × β)) (k1 k2 : Atom) (v : β) :
    lookupK (setKey m k1 v) k2 = if goEq k2 k1 then some v else lookupK m k2 := by
  induction m with
  | nil => simp [setKey, lookupK]
  | cons kv rest ih =>
      by_cases h : goEq k1 kv.1 = true
      · have hc : goEq k2 kv.1 = goEq k2 k1 := (goEq_congr_r h).symm
        simp only [setKey, h, if_true, lookupK_cons, hc]
        by_cases h2 : goEq k2 k1 = true <;> simp [h2]
      · simp only [setKey, h, if_false, lookupK_cons, ih]
        by_cases h2 : goEq k2 kv.1 = true
        · have h3 : goEq k2 k1 = false := by
            by_contra hx
            simp only [Bool.not_eq_false] at hx
            exact h (goEq_trans (goEq_trans (by rw [goEq_comm]; exact hx) h2) (goEq_refl _) )
          simp [lookupK_cons, h2, h3]
        · simp [lookupK_cons, h2, ih]

theorem hasKey_setKey {β : Type} (m : List (Atom × β)) (k1 k2 : Atom) (v : β) :
    hasKey (setKey m k1 v) k2 = (goEq k2 k1 || hasKey m k2) := by
  simp only [hasKey, lookupK_setKey]
  by_cases h : goEq k2 k1 = true <;> simp [h]

theorem getVal_setKey (m : List (Atom × val)) (k1 k2 : Atom) (v : val) :
    getVal (setKey m k1 v) k2 = if goEq k2 k1 then v else getVal m k2 := by
  simp only [getVal, lookupK_setKey]
  by_cases h : goEq k2 k1 = true <;> simp [h]

theorem lookupK_congr {β : Type} (m : List (Atom × β)) {k1 k2 : Atom}
    (h : goEq k1 k2 = true) : lookupK m k1 = lookupK m k2 := by
  induction m with
  | nil => rfl
  | cons kv rest ih =>
      simp only [lookupK_cons, goEq_congr h, ih]

theorem getVal_congr (m : List (Atom × val)) {k1 k2 : Atom} (h : goEq k1 k2 = true) :
    getVal m k1 = getVal m k2 := by
  simp only [getVal, lookupK_congr m h]

theorem hasKey_of_mem {β : Type} {m : List (Atom × β)} {kv : Atom × β} (h : kv ∈ m) :
    hasKey m kv.1 = true := by
  induction m with
  | nil => cases h
  | cons hd rest ih =>
      rcases List.mem_cons.mp h with h1 | h1
      · subst h1; simp [hasKey_cons, goEq_refl]
      · simp [hasKey_cons, ih h1]

theorem getVal_insertBefore (es : List (Atom × GoVal)) :
    ∀ (m : List (Atom × val)) (k : Atom),
    getVal (insertBefore m es) k = if hasKey es k then ⟨true, false⟩ else getVal m k := by
  induction es with
  | nil => intro m k; simp [insertBefore, hasKey, lookupK]
  | cons kv rest ih =>
      intro m k
      simp only [insertBefore, ih, getVal_setKey, hasKey_cons]
      by_cases h1 : hasKey rest k = true <;> by_cases h2 : goEq k kv.1 = true <;>
        simp [h1, h2]

theorem getVal_markAfter (es : List (Atom × GoVal)) :
    ∀ (m : List (Atom × val)) (k : Atom),
    getVal (markAfter m es) k =
      ⟨(getVal m k).before, (getVal m k).after || hasKey es k⟩ := by
  induction es with
  | nil => intro m k; simp [markAfter, hasKey, lookupK]
  | cons kv rest ih =>
      intro m k
      simp only [markAfter, ih, getVal_setKey, hasKey_cons]
      by_cases h2 : goEq k kv.1 = true
      · rw [if_pos h2, getVal_congr m h2]
        simp [h2]
      · rw [if_neg h2]
        simp [h2]

theorem align_getVal (m1 m2 : List (Atom × GoVal)) (k : Atom) :
    getVal (alignMapKeys m1 m2) k = ⟨hasKey m1 k, hasKey m2 k⟩ := by
  simp only [alignMapKeys, getVal_markAfter, getVal_insertBefore]
  by_cases h : hasKey m1 k = true <;> simp [h, getVal, lookupK]

theorem hasKey_insertBefore (es : List (Atom × GoVal)) :
    ∀ (m : List (Atom × val)) (k : Atom),
    hasKey (insertBefore m es) k = (hasKey m k || hasKey es k) := by
  induction es with
  | nil => intro m k; simp [insertBefore, hasKey, lookupK]
  | cons kv rest ih =>
      intro m k
      simp only [insertBefore, ih, hasKey_setKey, hasKey_cons]
      by_cases h1 : goEq k kv.1 = true <;> simp [h1, Bool.or_comm, Bool.or_assoc, Bool.or_left_comm]

theorem hasKey_markAfter (es : List (Atom × GoVal)) :
    ∀ (m : List (Atom × val)) (k : Atom),
    hasKey (markAfter m es) k = (hasKey m k || hasKey es k) := by
  induction es with
  | nil => intro m k; simp [markAfter, hasKey, lookupK]
  | cons kv rest ih =>
      intro m k
      simp only [markAfter, ih, hasKey_setKey, hasKey_cons]
      by_cases h1 : goEq k kv.1 = true <;> simp [h1, Bool.or_comm, Bool.or_assoc, Bool.or_left_comm]

theorem align_hasKey (m1 m2 : List (Atom × GoVal)) (k : Atom) :
    hasKey (alignMapKeys m1 m2) k = (hasKey m1 k || hasKey m2 k) := by
  simp only [alignMapKeys, hasKey_markAfter, hasKey_insertBefore]
  simp [hasKey, lookupK]

/-- No two entries of the list have Go-equal keys. -/
def nodupKeys {β : Type} (m : List (Atom × β)) : Prop :=
  m.Pairwise (fun x y => goEq x.1 y.1 = false)

theorem mem_setKey {β : Type} {m : List (Atom × β)} {k : Atom} {v : β} {y : Atom × β}
    (h : y ∈ setKey m k v) : (∃ w, (y.1, w) ∈ m) ∨ y.1 = k := by
  induction m with
  | nil =>
      simp only [setKey, List.mem_singleton] at h
      right; rw [h]
  | cons kv rest ih =>
      simp only [setKey] at h
      by_cases hg : goEq k kv.1 = true
      · rw [if_pos hg] at h
        rcases List.mem_cons.mp h with h1 | h1
        · left; exact ⟨kv.2, by rw [h1]; exact List.mem_cons_self _ _⟩
        · left; exact ⟨y.2, List.mem_cons_of_mem _ h1⟩
      · rw [if_neg hg] at h
        rcases List.mem_cons.mp h with h1 | h1
        · left; exact ⟨y.2, by rw [h1]; exact List.mem_cons_self _ _⟩
        · rcases ih h1 with ⟨w, hw⟩ | h2
          · left; exact ⟨w, List.mem_cons_of_mem _ hw⟩
          · right; exact h2

theorem nodupKeys_setKey {β : Type} {m : List (Atom × β)} (k : Atom) (v : β)
    (h : nodupKeys m) : nodupKeys (setKey m k v) := by
  induction m with
  | nil => simp [setKey, nodupKeys]
  | cons kv rest ih =>
      rcases List.pairwise_cons.mp h with ⟨hhd, htl⟩
      by_cases hg : goEq k kv.1 = true
      · simp only [setKey, if_pos hg]
        exact List.pairwise_cons.mpr ⟨hhd, htl⟩
      · simp only [setKey, if_neg hg]
        refine List.pairwise_cons.mpr ⟨?_, ih htl⟩
        intro y hy
        rcases mem_setKey hy with ⟨w, hw⟩ | h2
        · exact hhd (y.1, w) hw
        · rw [h2]
          rw [goEq_comm] at hg
          simpa using hg

theorem nodupKeys_insertBefore (es : List (Atom × GoVal)) :
    ∀ (m : List (Atom × val)), nodupKeys m → nodupKeys (insertBefore m es) := by
  induction es with
  | nil => intro m h; exact h
  | cons kv rest ih => intro m h; exact ih _ (nodupKeys_setKey _ _ h)

theorem nodupKeys_markAfter (es : List (Atom × GoVal)) :
    ∀ (m : List (Atom × val)), nodupKeys m → nodupKeys (markAfter m es) := by
  induction es with
  | nil => intro m h; exact h
  | cons kv rest ih => intro m h; exact ih _ (nodupKeys_setKey _ _ h)

theorem nodupKeys_align (m1 m2 : List (Atom × GoVal)) :
    nodupKeys (alignMapKeys m1 m2) :=
  nodupKeys_markAfter m2 _ (nodupKeys_insertBefore m1 [] (List.Pairwise.nil))

theorem lookupK_of_mem {β : Type} {m : List (Atom × β)} {k : Atom} {v : β}
    (hm : nodupKeys m) (h : (k, v) ∈ m) : lookupK m k = some v := by
  induction m with
  | nil => cases h
  | cons kv rest ih =>
      rcases List.pairwise_cons.mp hm with ⟨hhd, htl⟩
      rcases List.mem_cons.mp h with h1 | h1
      · rw [← h1]
        simp [lookupK_cons, goEq_refl]
      · have hg : goEq kv.1 k = false := hhd (k, v) h1
        rw [goEq_comm] at hg
        simp [lookupK_cons, hg, ih htl h1]

theorem align_mem_flags {m1 m2 : List (Atom × GoVal)} {k : Atom} {fl : val}
    (h : (k, fl) ∈ alignMapKeys m1 m2) : fl = ⟨hasKey m1 k, hasKey m2 k⟩ := by
  have hlook := lookupK_of_mem (nodupKeys_align m1 m2) h
  have hget := align_getVal m1 m2 k
  simp only [getVal, hlook, Option.getD_some] at hget
  exact hget

theorem align_mem_domain {m1 m2 : List (Atom × GoVal)} {k : Atom} {fl : val}
    (h : (k, fl) ∈ alignMapKeys m1 m2) : (hasKey m1 k || hasKey m2 k) = true := by
  have := hasKey_of_mem h
  rwa [align_hasKey] at this

theorem hasKey_append {β : Type} (m1 m2 : List (Atom × β)) (k : Atom) :
    hasKey (m1 ++ m2) k = (hasKey m1 k || hasKey m2 k) := by
  induction m1 with
  | nil => simp [hasKey, lookupK]
  | cons kv rest ih =>
      simp only [List.cons_append, hasKey_cons, ih, Bool.or_assoc]

theorem setKey_append {β : Type} {m : List (Atom × β)} {k : Atom} (v : β)
    (h : hasKey m k = false) : setKey m k v = m ++ [(k, v)] := by
  induction m with
  | nil => rfl
  | cons kv rest ih =>
      rw [hasKey_cons, Bool.or_eq_false_iff] at h
      have hg : goEq k kv.1 = false := h.1
      simp [setKey, hg, ih h.2]

theorem getVal_not_hasKey {m : List (Atom × val)} {k : Atom} (h : hasKey m k = false) :
    getVal m k = ⟨false, false⟩ := by
  unfold hasKey at h
  cases hq : lookupK m k with
  | none => simp [getVal, hq]
  | some v => rw [hq] at h; simp at h

theorem markAfter_fresh (es : List (Atom × GoVal)) :
    ∀ (m : List (Atom × val)),
    (∀ kv ∈ es, hasKey m kv.1 = false) →
    es.Pairwise (fun x y => goEq y.1 x.1 = false) →
    markAfter m es = m ++ es.map (fun kv => (kv.1, (⟨false, true⟩ : val))) := by
  induction es with
  | nil => intro m _ _; simp [markAfter]
  | cons kv rest ih =>
      intro m hfresh hpw
      rcases List.pairwise_cons.mp hpw with ⟨hhd, htl⟩
      have hk : hasKey m kv.1 = false := hfresh kv (List.mem_cons_self _ _)
      have hget : getVal m kv.1 = ⟨false, false⟩ := getVal_not_hasKey hk
      have hfresh2 : ∀ kv2 ∈ rest, hasKey (m ++ [(kv.1, (⟨false, true⟩ : val))]) kv2.1 = false := by
        intro kv2 h2
        have h3 : hasKey m kv2.1 = false := hfresh kv2 (List.mem_cons_of_mem _ h2)
        have h4 : goEq kv2.1 kv.1 = false := hhd kv2 h2
        rw [hasKey_append, h3, hasKey_cons, h4]
        simp [hasKey, lookupK]
      simp only [markAfter, hget]
      rw [setKey_append _ hk, ih _ hfresh2 htl]
      simp

/-! Size bounds used to justify the recursion budget. -/

theorem goSize_pos (v : GoVal) : 1 ≤ goSize v := by
  cases v <;> simp [goSize]

theorem fieldsSize_of_mem {fs : List (String × GoVal)} {p : String × GoVal} (h : p ∈ fs) :
    goSize p.2 ≤ fieldsSize fs := by
  induction fs with
  | nil => cases h
  | cons f rest ih =>
      rcases List.mem_cons.mp h with h1 | h1
      · subst h1; simp [fieldsSize]; omega
      · have := ih h1; simp [fieldsSize]; omega

theorem entriesSize_of_mem {es : List (Atom × GoVal)} {p : Atom × GoVal} (h : p ∈ es) :
    goSize p.2 ≤ entriesSize es := by
  induction es with
  | nil => cases h
  | cons kv rest ih =>
      rcases List.mem_cons.mp h with h1 | h1
      · subst h1; simp [entriesSize]; omega
      · have := ih h1; simp [entriesSize]; omega

theorem elemsSize_of_mem {vs : List GoVal} {v : GoVal} (h : v ∈ vs) :
    goSize v ≤ elemsSize vs := by
  induction vs with
  | nil => cases h
  | cons w rest ih =>
      rcases List.mem_cons.mp h with h1 | h1
      · subst h1; simp [elemsSize]; omega
      · have := ih h1; simp [elemsSize]; omega

theorem lookupK_mem {β : Type} {es : List (Atom × β)} {k : Atom} {v : β}
    (h : lookupK es k = some v) : ∃ p, p ∈ es ∧ p.2 = v := by
  induction es with
  | nil => simp [lookupK] at h
  | cons kv rest ih =>
      rw [lookupK_cons] at h
      by_cases hg : goEq k kv.1 = true
      · rw [if_pos hg] at h
        exact ⟨kv, List.mem_cons_self _ _, by injection h⟩
      · rw [if_neg hg] at h
        obtain ⟨p, hp, hv⟩ := ih h
        exact ⟨p, List.mem_cons_of_mem _ hp, hv⟩

/-! Behaviour of the child loop. -/

@[simp] theorem exceptBind_ok {α β : Type} (a : α) (f : α → Except DiffErr β) :
    (Except.ok a >>= f : Except DiffErr β) = f a := rfl

@[simp] theorem exceptBind_error {α β : Type} (e : DiffErr) (f : α → Except DiffErr β) :
    (Except.error e >>= f : Except DiffErr β) = Except.error e := rfl

@[simp] theorem exceptMap_ok {α β : Type} (f : α → β) (a : α) :
    (f <$> (Except.ok a : Except DiffErr α)) = Except.ok (f a) := rfl

@[simp] theorem exceptMap_error {α β : Type} (f : α → β) (e : DiffErr) :
    (f <$> (Except.error e : Except DiffErr α)) = Except.error e := rfl

@[simp] theorem exceptPure {α : Type} (a : α) :
    (pure a : Except DiffErr α) = Except.ok a := rfl

theorem diffChildren_ok_of
    {rec : List String → Option GoVal → Option GoVal → Except DiffErr (List String)}
    {path : List String} {cs : List (String × Option GoVal × Option GoVal)}
    (h : ∀ c ∈ cs, rec (path ++ [c.1]) c.2.1 c.2.2 = .ok []) :
    diffChildren rec path cs = .ok [] := by
  induction cs with
  | nil => rfl
  | cons c rest ih =>
      have hc := h c (List.mem_cons_self _ _)
      have hr := ih (fun c2 h2 => h c2 (List.mem_cons_of_mem _ h2))
      simp [diffChildren, hc, hr, Except.bind]

theorem diffChildren_mem_ok
    {rec : List String → Option GoVal → Option GoVal → Except DiffErr (List String)}
    {path : List String} {cs : List (String × Option GoVal × Option GoVal)}
    (h : diffChildren rec path cs = .ok []) :
    ∀ c ∈ cs, rec (path ++ [c.1]) c.2.1 c.2.2 = .ok [] := by
  induction cs with
  | nil => intro c hc; cases hc
  | cons c rest ih =>
      intro c2 hc2
      cases hr : rec (path ++ [c.1]) c.2.1 c.2.2 with
      | error e => simp [diffChildren, hr, Except.bind] at h
      | ok r =>
          cases hrest : diffChildren rec path rest with
          | error e => simp [diffChildren, hr, hrest, Except.bind] at h
          | ok rs =>
              simp only [diffChildren, hr, hrest, Except.bind, Except.pure] at h
              have hz : r ++ rs = [] := by
                simpa [pure, Except.pure] using h
              rcases List.append_eq_nil.mp hz with ⟨hr0, hrs0⟩
              subst hr0 hrs0
              rcases List.mem_cons.mp hc2 with h1 | h1
              · subst h1; exact hr
              · exact ih hrest c2 h1

/-- The result of a child loop: concatenation of each child's changes,
or the first error. -/
theorem diffChildren_append
    {rec : List String → Option GoVal → Option GoVal → Except DiffErr (List String)}
    {path : List String} {c : String × Option GoVal × Option GoVal}
    {cs : List (String × Option GoVal × Option GoVal)} {r rs : List String}
    (h1 : rec (path ++ [c.1]) c.2.1 c.2.2 = .ok r)
    (h2 : diffChildren rec path cs = .ok rs) :
    diffChildren rec path (c :: cs) = .ok (r ++ rs) := by
  simp [diffChildren, h1, h2, Except.bind, pure, Except.pure]

/-- One unfolding step of the differ at a pair of sequences. -/
theorem diff_seq_step (t : Tmpl) (F : Nat) (path : List String) (l1 l2 : List GoVal) :
    diff t (F + 1) path (some (.seq l1)) (some (.seq l2)) =
      diffChildren (fun p a b => diff t F p a b) path (seqChildren l1 l2) := rfl

/-- One unfolding step of the differ at a pair of maps. -/
theorem diff_map_step (t : Tmpl) (F : Nat) (path : List String) (m1 m2 : List (Atom × GoVal)) :
    diff t (F + 1) path (some (.map m1)) (some (.map m2)) =
      diffChildren (fun p a b => diff t F p a b) path (mapChildren m1 m2) := rfl

theorem zipFields_self (fs : List (String × GoVal)) :
    zipFields fs fs = some (fs.map (fun f => (fieldSeg f.1, some f.2, some f.2))) := by
  induction fs with
  | nil => rfl
  | cons f rest ih => simp [zipFields, ih]

/-! The compiled default templates and their rendered forms. -/

/-- Compiled form of DefaultChange. -/
def changeChunks : List Chunk :=
  [Chunk.field ("Name"), Chunk.lit (" changed from "), Chunk.field ("Before"),
   Chunk.lit (" to "), Chunk.field ("After")]

/-- Compiled form of DefaultAdd. -/
def addChunks : List Chunk :=
  [Chunk.field ("Name"), Chunk.lit (" added "), Chunk.field ("After")]

/-- Compiled form of DefaultDelete. -/
def deleteChunks : List Chunk :=
  [Chunk.field ("Name"), Chunk.lit (" deleted "), Chunk.field ("Before")]

/-- The differ state produced by Objects. -/
def defaultTmpl : Tmpl := ⟨changeChunks, addChunks, deleteChunks⟩

theorem parse_DefaultChange : parseTemplate DefaultChange = some changeChunks := by decide

theorem parse_DefaultAdd : parseTemplate DefaultAdd = some addChunks := by decide

theorem parse_DefaultDelete : parseTemplate DefaultDelete = some deleteChunks := by decide

/-- The default changed leaf string. -/
def changedLeaf (name b a : String) : String :=
  name ++ (" changed from " ++ (b ++ (" to " ++ a)))

/-- The default added leaf string. -/
def addedLeaf (name a : String) : String := name ++ (" added " ++ a)

/-- The default deleted leaf string. -/
def deletedLeaf (name b : String) : String := name ++ (" deleted " ++ b)

theorem renderChange (n b a : String) :
    renderChunks changeChunks ⟨n, b, a⟩ = .ok (changedLeaf n b a) := by
  simp [changeChunks, renderChunks, lookupField, changedLeaf, Except.map, String.append_empty]

theorem renderAdd (n b a : String) :
    renderChunks addChunks ⟨n, b, a⟩ = .ok (addedLeaf n a) := by
  simp [addChunks, renderChunks, lookupField, addedLeaf, Except.map, String.append_empty]

theorem renderDelete (n b a : String) :
    renderChunks deleteChunks ⟨n, b, a⟩ = .ok (deletedLeaf n b) := by
  simp [deleteChunks, renderChunks, lookupField, deletedLeaf, Except.map, String.append_empty]

theorem diffAtom_add (p : List String) (v : GoVal) :
    diffAtom defaultTmpl p none (some v) =
      .ok [addedLeaf (String.join p) (formatValue v)] := by
  simp [diffAtom, defaultTmpl, renderAdd, Except.map]

theorem diffAtom_delete (p : List String) (v : GoVal) :
    diffAtom defaultTmpl p (some v) none =
      .ok [deletedLeaf (String.join p) (formatValue v)] := by
  simp [diffAtom, defaultTmpl, renderDelete, Except.map]

theorem diffAtom_both (p : List String) (v1 v2 : GoVal) :
    diffAtom defaultTmpl p (some v1) (some v2) =
      if goEqVal v1 v2 then .ok []
      else .ok [changedLeaf (String.join p) (formatValue v1) (formatValue v2)] := by
  by_cases h : goEqVal v1 v2 = true
  · simp [diffAtom, h]
  · simp only [Bool.not_eq_true] at h
    simp [diffAtom, h, defaultTmpl, renderChange, Except.map]

/-! Running the validated pipeline with the default templates. -/

theorem objects_defaults_run (b a : GoVal)
    (h1 : objectKinds.contains (kindStr b) = true)
    (h2 : objectKinds.contains (kindStr a) = true)
    (h3 : kindStr b = kindStr a) (h4 : typeName b = typeName a) :
    Objects (some b) (some a) =
      diff defaultTmpl (goSize b + goSize a + 1) [] (some b) (some a) := by
  have h1m : kindStr b ∈ objectKinds := by simpa using h1
  have h2m : kindStr a ∈ objectKinds := by simpa using h2
  simp [Objects, objects, isObj, h1m, h2m, sameKind, h3, sameNamedType, h4, compileTemplate,
        parse_DefaultChange, parse_DefaultAdd, parse_DefaultDelete, fuelFor, optSize, defaultTmpl]

/-! Reflexivity of the traversal: diffing any value against itself with
enough fuel emits nothing. -/

theorem diff_refl :
    ∀ (n : Nat) (x : GoVal), goSize x ≤ n →
    ∀ (t : Tmpl) (fuel : Nat) (path : List String), goSize x ≤ fuel →
    diff t fuel path (some x) (some x) = .ok [] := by
  intro n
  induction n with
  | zero =>
      intro x hx
      have := goSize_pos x
      omega
  | succ n ih =>
      intro x hx t fuel path hf
      have hpos := goSize_pos x
      obtain ⟨f, rfl⟩ : ∃ f, fuel = f + 1 := ⟨fuel - 1, by omega⟩
      cases x with
      | atom a =>
          simp [diff, presentKind, kindOf, diffAtom, goEqVal, goEq_refl]
      | struct nm fs =>
          have hx2 : fieldsSize fs ≤ n := by
            simp only [goSize] at hx; omega
          have hf2 : fieldsSize fs ≤ f := by
            simp only [goSize] at hf; omega
          simp only [diff, presentKind, kindOf, diffStruct, zipFields_self]
          apply diffChildren_ok_of
          intro c hc
          simp only [List.mem_map] at hc
          obtain ⟨fld, hfld, rfl⟩ := hc
          have hsz := fieldsSize_of_mem hfld
          exact ih fld.2 (by omega) t f _ (by omega)
      | map es =>
          have hx2 : entriesSize es ≤ n := by simp only [goSize] at hx; omega
          have hf2 : entriesSize es ≤ f := by simp only [goSize] at hf; omega
          simp only [diff, presentKind, kindOf, diffMap, mapChildren]
          apply diffChildren_ok_of
          intro c hc
          simp only [List.mem_map] at hc
          obtain ⟨kf, hkf, rfl⟩ := hc
          obtain ⟨k, fl⟩ := kf
          have hfl := align_mem_flags hkf
          have hdom : hasKey es k = true := by
            have hd := align_mem_domain hkf
            simpa using hd
          rw [hdom] at hfl
          subst hfl
          obtain ⟨v, hv⟩ : ∃ v, lookupK es k = some v := by
            unfold hasKey at hdom
            cases hq : lookupK es k with
            | none => rw [hq] at hdom; simp at hdom
            | some v => exact ⟨v, rfl⟩
          show diff t f (path ++ [keySeg k]) (lookupK es k) (lookupK es k) = .ok []
          rw [hv]
          obtain ⟨p, hp, hpv⟩ := lookupK_mem hv
          have hsz : goSize v ≤ entriesSize es := hpv ▸ entriesSize_of_mem hp
          exact ih v (by omega) t f _ (by omega)
      | seq vs =>
          have hx2 : elemsSize vs ≤ n := by simp only [goSize] at hx; omega
          have hf2 : elemsSize vs ≤ f := by simp only [goSize] at hf; omega
          simp only [diff, presentKind, kindOf, diffSequence, seqChildren]
          apply diffChildren_ok_of
          intro c hc
          simp only [List.mem_map, List.mem_range, Nat.max_self] at hc
          obtain ⟨i, hi, rfl⟩ := hc
          obtain ⟨v, hv⟩ : ∃ v, vs.get? i = some v := by
            cases hq : vs.get? i with
            | none =>
                rw [List.get?_eq_none] at hq
                exact absurd hq (by omega)
            | some v => exact ⟨v, rfl⟩
          show diff t f (path ++ [seqSeg i]) (vs.get? i) (vs.get? i) = .ok []
          rw [hv]
          have hmem := List.get?_mem hv
          have hsz := elemsSize_of_mem hmem
          exact ih v (by omega) t f _ (by omega)

/-! A traversal that emits nothing does so under any template set: no
leaf was rendered, so the templates were never consulted. -/

@[simp] theorem exMap_ok {α β : Type} (f : α → β) (a : α) :
    Except.map f (Except.ok a : Except DiffErr α) = .ok (f a) := rfl

@[simp] theorem exMap_error {α β : Type} (f : α → β) (e : DiffErr) :
    Except.map f (Except.error e : Except DiffErr α) = .error e := rfl

theorem diffAtom_ok_nil {t t2 : Tmpl} {path : List String} {o1 o2 : Option GoVal}
    (h : diffAtom t path o1 o2 = .ok []) : diffAtom t2 path o1 o2 = .ok [] := by
  cases o1 with
  | none =>
      cases o2 with
      | none => simp [diffAtom] at h
      | some v =>
          cases hr : renderChunks t.add ⟨String.join path, "", formatValue v⟩ with
          | ok s => simp [diffAtom, hr] at h
          | error e => simp [diffAtom, hr] at h
  | some v1 =>
      cases o2 with
      | none =>
          cases hr : renderChunks t.delete ⟨String.join path, formatValue v1, ""⟩ with
          | ok s => simp [diffAtom, hr] at h
          | error e => simp [diffAtom, hr] at h
      | some v2 =>
          by_cases hg : goEqVal v1 v2 = true
          · simp [diffAtom, hg]
          · simp only [Bool.not_eq_true] at hg
            cases hr : renderChunks t.change ⟨String.join path, formatValue v1, formatValue v2⟩ with
            | ok s => simp [diffAtom, hg, hr] at h
            | error e => simp [diffAtom, hg, hr] at h

theorem diff_ok_nil_tmpl :
    ∀ (fuel : Nat) (t t2 : Tmpl) (path : List String) (o1 o2 : Option GoVal),
    diff t fuel path o1 o2 = .ok [] → diff t2 fuel path o1 o2 = .ok [] := by
  intro fuel
  induction fuel with
  | zero => intro t t2 path o1 o2 h; simp [diff] at h
  | succ f ih =>
      intro t t2 path o1 o2 h
      have hchild : ∀ (cs : List (String × Option GoVal × Option GoVal)) (path2 : List String),
          diffChildren (fun p a b => diff t f p a b) path2 cs = .ok [] →
          diffChildren (fun p a b => diff t2 f p a b) path2 cs = .ok [] := by
        intro cs path2 hcs
        apply diffChildren_ok_of
        intro c hc
        exact ih t t2 _ _ _ (diffChildren_mem_ok hcs c hc)
      simp only [diff] at h ⊢
      cases hk : presentKind o1 o2 with
      | none => rw [hk] at h; exact Except.noConfusion h
      | some k =>
          rw [hk] at h
          cases k with
          | katom => exact diffAtom_ok_nil h
          | kstruct =>
              cases o1 with
              | some v1 =>
                  cases v1 with
                  | struct n1 fs1 =>
                      cases o2 with
                      | none => simp only [diffStruct] at h ⊢; exact hchild _ _ h
                      | some v2 =>
                          cases v2 with
                          | struct n2 fs2 =>
                              simp only [diffStruct] at h ⊢
                              cases hz : zipFields fs1 fs2 with
                              | none => rw [hz] at h; exact Except.noConfusion h
                              | some cs => rw [hz] at h; exact hchild _ _ h
                          | atom a => simp [diffStruct] at h
                          | map es => simp [diffStruct] at h
                          | seq vs => simp [diffStruct] at h
                  | atom a => simp [presentKind, kindOf] at hk
                  | map es => simp [presentKind, kindOf] at hk
                  | seq vs => simp [presentKind, kindOf] at hk
              | none =>
                  cases o2 with
                  | none => simp [presentKind] at hk
                  | some v2 =>
                      cases v2 with
                      | struct n2 fs2 => simp only [diffStruct] at h ⊢; exact hchild _ _ h
                      | atom a => simp [presentKind, kindOf] at hk
                      | map es => simp [presentKind, kindOf] at hk
                      | seq vs => simp [presentKind, kindOf] at hk
          | kmap =>
              cases o1 with
              | none => simp [diffMap] at h
              | some v1 =>
                  cases v1 with
                  | map m1 =>
                      cases o2 with
                      | none => simp [diffMap] at h
                      | some v2 =>
                          cases v2 with
                          | map m2 =>
                              simp only [diffMap] at h ⊢
                              exact hchild _ _ h
                          | atom a => simp [diffMap] at h
                          | struct n fs => simp [diffMap] at h
                          | seq vs => simp [diffMap] at h
                  | atom a => simp [diffMap] at h
                  | struct n fs => simp [diffMap] at h
                  | seq vs => simp [diffMap] at h
          | kseq =>
              cases o1 with
              | none => simp [diffSequence] at h
              | some v1 =>
                  cases v1 with
                  | seq l1 =>
                      cases o2 with
                      | none => simp [diffSequence] at h
                      | some v2 =>
                          cases v2 with
                          | seq l2 =>
                              simp only [diffSequence] at h ⊢
                              exact hchild _ _ h
                          | atom a => simp [diffSequence] at h
                          | struct n fs => simp [diffSequence] at h
                          | map es => simp [diffSequence] at h
                  | atom a => simp [diffSequence] at h
                  | struct n fs => simp [diffSequence] at h
                  | map es => simp [diffSequence] at h

/-! Evaluation of atom-only child lists, used for the sequence and map
claims. -/

@[simp] theorem join_single (s : String) : String.join [s] = s := rfl

theorem insertBefore_fresh (es : List (Atom × GoVal)) :
    ∀ (m : List (Atom × val)),
    (∀ kv ∈ es, hasKey m kv.1 = false) →
    es.Pairwise (fun x y => goEq y.1 x.1 = false) →
    insertBefore m es = m ++ es.map (fun kv => (kv.1, (⟨true, false⟩ : val))) := by
  induction es with
  | nil => intro m _ _; simp [insertBefore]
  | cons kv rest ih =>
      intro m hfresh hpw
      rcases List.pairwise_cons.mp hpw with ⟨hhd, htl⟩
      have hk : hasKey m kv.1 = false := hfresh kv (List.mem_cons_self _ _)
      have hfresh2 : ∀ kv2 ∈ rest, hasKey (m ++ [(kv.1, (⟨true, false⟩ : val))]) kv2.1 = false := by
        intro kv2 h2
        have h3 : hasKey m kv2.1 = false := hfresh kv2 (List.mem_cons_of_mem _ h2)
        have h4 : goEq kv2.1 kv.1 = false := hhd kv2 h2
        rw [hasKey_append, h3, hasKey_cons, h4]
        simp [hasKey, lookupK]
      simp only [insertBefore]
      rw [setKey_append _ hk, ih _ hfresh2 htl]
      simp

/-- The leaf list the default templates produce for one pair of optional
atoms, named by the given path string: nothing when equal, one changed,
added or deleted line otherwise. -/
def atomPairLeaf (name : String) : Option Atom → Option Atom → List String
  | some a, some b =>
      if goEq a b then []
      else [changedLeaf name (formatInterface a) (formatInterface b)]
  | none, some b => [addedLeaf name (formatInterface b)]
  | some a, none => [deletedLeaf name (formatInterface a)]
  | none, none => []

/-- Positional sequence diff as the spec states it: visit indices 0
through max(len(before), len(after)) - 1, treating an index beyond one
side's length as absent on that side. -/
def seqDiffSpec (l1 l2 : List Atom) : List String :=
  (List.range (max l1.length l2.length)).foldr
    (fun i acc => atomPairLeaf (seqSeg i) (l1.get? i) (l2.get? i) ++ acc) []

theorem seq_children_run (l1 l2 : List Atom) (F : Nat) :
    ∀ (is : List Nat) (path : List String),
    (∀ i ∈ is, i < max l1.length l2.length) →
    diffChildren (fun p a b => diff defaultTmpl (F + 1) p a b) path
      (is.map (fun i => (seqSeg i, (l1.map GoVal.atom).get? i, (l2.map GoVal.atom).get? i))) =
    .ok (is.foldr
      (fun i acc => atomPairLeaf (String.join (path ++ [seqSeg i])) (l1.get? i) (l2.get? i) ++ acc)
      []) := by
  intro is
  induction is with
  | nil => intro path _; rfl
  | cons i rest ih =>
      intro path h
      have hi : i < max l1.length l2.length := h i (List.mem_cons_self _ _)
      have hrest := ih path (fun j hj => h j (List.mem_cons_of_mem _ hj))
      simp only [List.map_cons, List.foldr_cons]
      have hhead : diff defaultTmpl (F + 1) (path ++ [seqSeg i])
          ((l1.map GoVal.atom).get? i) ((l2.map GoVal.atom).get? i) =
          .ok (atomPairLeaf (String.join (path ++ [seqSeg i])) (l1.get? i) (l2.get? i)) := by
        rw [List.get?_map, List.get?_map]
        cases h1 : l1.get? i with
        | some a =>
            cases h2 : l2.get? i with
            | some b =>
                simp only [Option.map_some']
                simp only [diff, presentKind, kindOf]
                rw [diffAtom_both]
                by_cases hg : goEq a b = true
                · simp [atomPairLeaf, hg, goEqVal]
                · simp only [Bool.not_eq_true] at hg
                  simp [atomPairLeaf, hg, goEqVal, formatValue]
            | none =>
                simp only [Option.map_some', Option.map_none']
                simp only [diff, presentKind, kindOf]
                rw [diffAtom_delete]
                simp [atomPairLeaf, formatValue]
        | none =>
            cases h2 : l2.get? i with
            | some b =>
                simp only [Option.map_some', Option.map_none']
                simp only [diff, presentKind, kindOf]
                rw [diffAtom_add]
                simp [atomPairLeaf, formatValue]
            | none =>
                rw [List.get?_eq_none] at h1 h2
                exact absurd hi (by omega)
      exact diffChildren_append hhead hrest

theorem map_add_children (F : Nat) (es2 : List (Atom × GoVal)) :
    ∀ (es : List (Atom × Atom)) (path : List String),
    (∀ kv ∈ es, lookupK es2 kv.1 = some (GoVal.atom kv.2)) →
    diffChildren (fun p a b => diff defaultTmpl (F + 1) p a b) path
      (es.map (fun kv => (keySeg kv.1, none, lookupK es2 kv.1))) =
    .ok (es.map (fun kv =>
      addedLeaf (String.join (path ++ [keySeg kv.1])) (formatInterface kv.2))) := by
  intro es
  induction es with
  | nil => intro path _; rfl
  | cons kv rest ih =>
      intro path h
      have hk := h kv (List.mem_cons_self _ _)
      have hrest := ih path (fun j hj => h j (List.mem_cons_of_mem _ hj))
      simp only [List.map_cons]
      have hhead : diff defaultTmpl (F + 1) (path ++ [keySeg kv.1]) none (lookupK es2 kv.1) =
          .ok [addedLeaf (String.join (path ++ [keySeg kv.1])) (formatInterface kv.2)] := by
        rw [hk]
        simp only [diff, presentKind, kindOf]
        rw [diffAtom_add]
        simp [formatValue]
      have := @diffChildren_append _ path (keySeg kv.1, none, lookupK es2 kv.1) _ _ _ hhead hrest
      simpa using this

theorem map_delete_children (F : Nat) (es1 : List (Atom × GoVal)) :
    ∀ (es : List (Atom × Atom)) (path : List String),
    (∀ kv ∈ es, lookupK es1 kv.1 = some (GoVal.atom kv.2)) →
    diffChildren (fun p a b => diff defaultTmpl (F + 1) p a b) path
      (es.map (fun kv => (keySeg kv.1, lookupK es1 kv.1, none))) =
    .ok (es.map (fun kv =>
      deletedLeaf (String.join (path ++ [keySeg kv.1])) (formatInterface kv.2))) := by
  intro es
  induction es with
  | nil => intro path _; rfl
  | cons kv rest ih =>
      intro path h
      have hk := h kv (List.mem_cons_self _ _)
      have hrest := ih path (fun j hj => h j (List.mem_cons_of_mem _ hj))
      simp only [List.map_cons]
      have hhead : diff defaultTmpl (F + 1) (path ++ [keySeg kv.1]) (lookupK es1 kv.1) none =
          .ok [deletedLeaf (String.join (path ++ [keySeg kv.1])) (formatInterface kv.2)] := by
        rw [hk]
        simp only [diff, presentKind, kindOf]
        rw [diffAtom_delete]
        simp [formatValue]
      have := @diffChildren_append _ path (keySeg kv.1, lookupK es1 kv.1, none) _ _ _ hhead hrest
      simpa using this

/-! Concrete fixtures drawn from the repository's tests. -/

/-- The config record used throughout the repository's tests. -/
def config (d : Bool) (v : String) (t : Int) : GoVal :=
  GoVal.struct ("config")
    [("Debug", .atom (.bool d)), ("Version", .atom (.str v)), ("Timeout", .atom (.int t))]

/-- The notConfig record: same fields, different declared type name. -/
def notConfig : GoVal :=
  GoVal.struct ("notConfig")
    [("Debug", .atom (.bool false)), ("Version", .atom (.str (""))), ("Timeout", .atom (.int 0))]

/-- The nestedTest record with a nil Mapping field. -/
def nestedEmpty : GoVal := .struct ("nestedTest") [("Mapping", .map [])]

/-- The nestedTest record with Mapping holding one key and a one-element
sequence. -/
def nestedFull : GoVal :=
  .struct ("nestedTest")
    [("Mapping", .map [(.str ("yo"), .seq [.atom (.str ("hi"))])])]

/-! Claim theorems. -/

/-- C1: a sequence (or map) node that exists on only one side is not
traversed by the present side's shape; diffSequence dereferences the
absent side (v1.Len() on a nil *reflect.Value) and the program panics.
Diffing nestedTest{} against nestedTest{Mapping: {"yo": ["hi"]}} in
either direction crashes instead of emitting the leaves
`.Mapping["yo"][0] added "hi"` (resp. the deleted leaves) that the spec
and the repository's own TestObjects cases expect. -/
theorem C1_one_sided_sequence_panics :
    Objects (some nestedEmpty) (some nestedFull) = .error .nilPanic ∧
    Objects (some nestedFull) (some nestedEmpty) = .error .nilPanic := ⟨rfl, rfl⟩

/-- C2: diffing {true, "x", 1} against {false, "y", 2} over a flat
record {A bool, B string, C int} yields exactly the three changed leaves
in declared field order with string values quoted; moreover with the
default templates every string atom is rendered quoted in all three leaf
kinds, and non-string atoms keep their default string form. -/
theorem C2_flat_record_changed_leaves :
    Objects
        (some (.struct ("T")
          [("A", .atom (.bool true)), ("B", .atom (.str ("x"))), ("C", .atom (.int 1))]))
        (some (.struct ("T")
          [("A", .atom (.bool false)), ("B", .atom (.str ("y"))), ("C", .atom (.int 2))])) =
      .ok [".A changed from true to false",
           ".B changed from \"x\" to \"y\"",
           ".C changed from 1 to 2"] ∧
    (∀ (p : List String) (s1 s2 : String), s1 ≠ s2 →
        diffAtom defaultTmpl p (some (.atom (.str s1))) (some (.atom (.str s2))) =
          .ok [changedLeaf (String.join p) ("\"" ++ s1 ++ "\"") ("\"" ++ s2 ++ "\"")]) ∧
    (∀ (p : List String) (s : String),
        diffAtom defaultTmpl p none (some (.atom (.str s))) =
          .ok [addedLeaf (String.join p) ("\"" ++ s ++ "\"")]) ∧
    (∀ (p : List String) (s : String),
        diffAtom defaultTmpl p (some (.atom (.str s))) none =
          .ok [deletedLeaf (String.join p) ("\"" ++ s ++ "\"")]) ∧
    (∀ (p : List String) (n : Int),
        diffAtom defaultTmpl p none (some (.atom (.int n))) =
          .ok [addedLeaf (String.join p) (toString n)]) ∧
    (∀ (p : List String) (b : Bool),
        diffAtom defaultTmpl p none (some (.atom (.bool b))) =
          .ok [addedLeaf (String.join p) (toString b)]) := by
  refine ⟨rfl, ?_, ?_, ?_, ?_, ?_⟩
  · intro p s1 s2 h
    have hb : (s1 == s2) = false := beq_eq_false_iff_ne.mpr h
    rw [diffAtom_both]
    simp [goEqVal, goEq, hb, formatValue, formatInterface]
  · intro p s
    rw [diffAtom_add]
    simp [formatValue, formatInterface]
  · intro p s
    rw [diffAtom_delete]
    simp [formatValue, formatInterface]
  · intro p n
    rw [diffAtom_add]
    simp [formatValue, formatInterface]
  · intro p b
    rw [diffAtom_add]
    simp [formatValue, formatInterface]

/-- C2 witness: the changed-leaf clause applied at .B with "x" and "y". -/
theorem C2_witness :
    (("x" : String) ≠ "y") ∧
    diffAtom defaultTmpl [".B"] (some (.atom (.str ("x")))) (some (.atom (.str ("y")))) =
      .ok [changedLeaf (".B") ("\"x\"") ("\"y\"")] :=
  ⟨by decide, C2_flat_record_changed_leaves.2.1 [".B"] ("x") ("y") (by decide)⟩

/-- C3: the kind and name validation rejects non-container and
mismatched inputs with an error before any traversal, but a Go nil
argument is not rejected: isObj calls Kind() on a nil reflect.Type and
panics, although the repository's own "Nil object" test expects an error
return.  The first conjunct evaluates the code at that failing input. -/
theorem C3_validation_and_nil_crash :
    Objects (some (.seq [.atom (.str ("hi")), .atom (.str ("there"))])) none =
      .error .nilPanic ∧
    (∀ (v1 : GoVal) (o2 : Option GoVal), objectKinds.contains (kindStr v1) = false →
        Objects (some v1) o2 = .error (.notObj ("before") (kindStr v1))) ∧
    (∀ v1 v2 : GoVal, objectKinds.contains (kindStr v1) = true →
        objectKinds.contains (kindStr v2) = true → kindStr v1 ≠ kindStr v2 →
        Objects (some v1) (some v2) = .error (.kindMismatch (kindStr v1) (kindStr v2))) ∧
    (∀ v1 v2 : GoVal, objectKinds.contains (kindStr v1) = true →
        objectKinds.contains (kindStr v2) = true → kindStr v1 = kindStr v2 →
        typeName v1 ≠ typeName v2 →
        Objects (some v1) (some v2) = .error (.nameMismatch (typeName v1) (typeName v2))) := by
  refine ⟨rfl, ?_, ?_, ?_⟩
  · intro v1 o2 h
    have hm : kindStr v1 ∉ objectKinds := by simpa using h
    simp [Objects, objects, isObj, hm]
  · intro v1 v2 h1 h2 h3
    have h1m : kindStr v1 ∈ objectKinds := by simpa using h1
    have h2m : kindStr v2 ∈ objectKinds := by simpa using h2
    simp [Objects, objects, isObj, h1m, h2m, sameKind, h3]
  · intro v1 v2 h1 h2 h3 h4
    have h1m : kindStr v1 ∈ objectKinds := by simpa using h1
    have h2m : kindStr v2 ∈ objectKinds := by simpa using h2
    simp [Objects, objects, isObj, h1m, h2m, sameKind, h3, sameNamedType, h4]

/-- C3 witness: the three rejection clauses at concrete inputs. -/
theorem C3_witness :
    objectKinds.contains (kindStr (.atom (.int 3))) = false ∧
    Objects (some (.atom (.int 3))) (some (.atom (.int 3))) =
      .error (.notObj ("before") ("int")) ∧
    Objects (some (config true ("a") 1)) (some (.seq [.atom (.int 1)])) =
      .error (.kindMismatch ("struct") ("slice")) ∧
    Objects (some (config true ("a") 1)) (some notConfig) =
      .error (.nameMismatch ("config") ("notConfig")) :=
  ⟨rfl,
   C3_validation_and_nil_crash.2.1 (.atom (.int 3)) (some (.atom (.int 3))) rfl,
   C3_validation_and_nil_crash.2.2.1 (config true ("a") 1) (.seq [.atom (.int 1)])
     rfl rfl (by decide),
   C3_validation_and_nil_crash.2.2.2 (config true ("a") 1) notConfig
     rfl rfl rfl (by decide)⟩

/-- C5: sequence diffing is strictly positional.  For any two sequences
of atoms the result equals the positional specification (indices 0
through max(len) - 1, an index beyond one side treated as absent), and
diffing [1,2,3] against [1,2] yields exactly `[2] deleted 3`. -/
theorem C5_sequence_positional :
    (∀ l1 l2 : List Atom,
        Objects (some (.seq (l1.map GoVal.atom))) (some (.seq (l2.map GoVal.atom))) =
          .ok (seqDiffSpec l1 l2)) ∧
    Objects (some (.seq [.atom (.int 1), .atom (.int 2), .atom (.int 3)]))
        (some (.seq [.atom (.int 1), .atom (.int 2)])) =
      .ok ["[2] deleted 3"] := by
  constructor
  · intro l1 l2
    rw [objects_defaults_run (GoVal.seq (l1.map GoVal.atom)) (GoVal.seq (l2.map GoVal.atom))
        rfl rfl rfl rfl]
    obtain ⟨F, hF⟩ : ∃ F, goSize (GoVal.seq (l1.map GoVal.atom)) +
        goSize (GoVal.seq (l2.map GoVal.atom)) = F + 1 :=
      ⟨goSize (GoVal.seq (l1.map GoVal.atom)) + goSize (GoVal.seq (l2.map GoVal.atom)) - 1,
       by have := goSize_pos (GoVal.seq (l1.map GoVal.atom)); omega⟩
    rw [hF, diff_seq_step]
    simp only [seqChildren, List.length_map]
    rw [seq_children_run l1 l2 F (List.range (max l1.length l2.length)) []
        (fun i hi => List.mem_range.mp hi)]
    simp only [seqDiffSpec, List.nil_append, join_single]
  · rfl

/-- C6: the key aligner maps exactly the union of the two key sets, with
the before flag set iff the key occurs in the before map and the after
flag set iff it occurs in the after map; diffing {"yo":"hello"} against
{"hi":"there"} yields the deleted and added leaves. -/
theorem C6_key_alignment :
    (∀ (m1 m2 : List (Atom × GoVal)) (k : Atom),
        hasKey (alignMapKeys m1 m2) k = (hasKey m1 k || hasKey m2 k) ∧
        (getVal (alignMapKeys m1 m2) k).before = hasKey m1 k ∧
        (getVal (alignMapKeys m1 m2) k).after = hasKey m2 k) ∧
    Objects (some (.map [(.str ("yo"), .atom (.str ("hello")))]))
        (some (.map [(.str ("hi"), .atom (.str ("there")))])) =
      .ok ["[\"yo\"] deleted \"hello\"", "[\"hi\"] added \"there\""] := by
  constructor
  · intro m1 m2 k
    refine ⟨align_hasKey m1 m2 k, ?_, ?_⟩ <;> rw [align_getVal]
  · rfl

/-- Discriminator for pointer atoms. -/
def isPtr : Atom → Bool
  | .ptr _ _ => true
  | _ => false

/-- C7 counterexample: two distinct pointers to equal values are deeply
equal (reflect.DeepEqual is true) yet the differ emits a changed leaf,
because diffAtom compares with Go interface equality, which is pointer
identity for pointers.  The claim "no change record is emitted for
structurally equal values reached through distinct pointers" is false. -/
theorem C7_counterexample :
    deepEqual (.ptr 1 (.int 5)) (.ptr 2 (.int 5)) = true ∧
    Objects (some (.struct ("T") [("P", .atom (.ptr 1 (.int 5)))]))
        (some (.struct ("T") [("P", .atom (.ptr 2 (.int 5)))])) =
      .ok [".P changed from 0x1 to 0x2"] := ⟨rfl, rfl⟩

/-- C7 amended: at an atomic leaf with both sides present a changed leaf
is emitted iff the two values differ under Go interface equality; for
non-pointer atoms that relation coincides with deep equality, so the
claim holds there, while pointers compare by identity. -/
theorem C7_amended_interface_equality :
    (∀ (p : List String) (a b : Atom),
        diffAtom defaultTmpl p (some (.atom a)) (some (.atom b)) =
          if goEq a b then .ok []
          else .ok [changedLeaf (String.join p) (formatInterface a) (formatInterface b)]) ∧
    (∀ a b : Atom, isPtr a = false → goEq a b = deepEqual a b) := by
  constructor
  · intro p a b
    rw [diffAtom_both]
    by_cases h : goEq a b = true
    · simp [goEqVal, h]
    · simp only [Bool.not_eq_true] at h
      simp [goEqVal, h, formatValue]
  · intro a b h
    cases a <;> cases b <;> first | rfl | (simp [isPtr] at h)

/-- C7 witness: the non-pointer clause applied at two integers. -/
theorem C7_witness :
    isPtr (.int 1) = false ∧ goEq (.int 1) (.int 2) = deepEqual (.int 1) (.int 2) :=
  ⟨rfl, C7_amended_interface_equality.2 (.int 1) (.int 2) rfl⟩

/-- C8: reflexivity.  Diffing any accepted container-shaped value
against itself returns an empty change list and no error. -/
theorem C8_reflexivity (x : GoVal) (h : objectKinds.contains (kindStr x) = true) :
    Objects (some x) (some x) = .ok [] := by
  rw [objects_defaults_run x x h h rfl rfl]
  exact diff_refl (goSize x) x le_rfl defaultTmpl _ [] (by omega)

/-- C8 witness: reflexivity at the nested record-of-map-of-sequences. -/
theorem C8_witness :
    objectKinds.contains (kindStr nestedFull) = true ∧
    Objects (some nestedFull) (some nestedFull) = .ok [] :=
  ⟨rfl, C8_reflexivity nestedFull rfl⟩

/-- C9: an omitted (empty) template falls back to the corresponding
default, independently for each of the three kinds, and ObjectsF with
all three omitted is exactly Objects. -/
theorem C9_template_fallback :
    (∀ (b a : Option GoVal), ObjectsF ⟨"", "", ""⟩ b a = Objects b a) ∧
    (∀ (ad d : String) (b a : Option GoVal),
        ObjectsF ⟨"", ad, d⟩ b a = ObjectsF ⟨DefaultChange, ad, d⟩ b a) ∧
    (∀ (c d : String) (b a : Option GoVal),
        ObjectsF ⟨c, "", d⟩ b a = ObjectsF ⟨c, DefaultAdd, d⟩ b a) ∧
    (∀ (c ad : String) (b a : Option GoVal),
        ObjectsF ⟨c, ad, ""⟩ b a = ObjectsF ⟨c, ad, DefaultDelete⟩ b a) := by
  refine ⟨fun b a => ?_, fun ad d b a => ?_, fun c d b a => ?_, fun c ad b a => ?_⟩ <;>
    simp [ObjectsF, Objects, ite_self]

/-- C10: a nil associative container behaves as an empty one.  Diffing
an empty (nil) map against a populated map of atoms emits exactly one
added leaf per key, and with the sides swapped one deleted leaf per
key. -/
theorem C10_nil_map_as_empty :
    (∀ es : List (Atom × Atom), nodupKeys es →
        Objects (some (.map []))
            (some (.map (es.map (fun kv => (kv.1, GoVal.atom kv.2))))) =
          .ok (es.map (fun kv => addedLeaf (keySeg kv.1) (formatInterface kv.2)))) ∧
    (∀ es : List (Atom × Atom), nodupKeys es →
        Objects (some (.map (es.map (fun kv => (kv.1, GoVal.atom kv.2)))))
            (some (.map [])) =
          .ok (es.map (fun kv => deletedLeaf (keySeg kv.1) (formatInterface kv.2)))) := by
  constructor
  · intro es hnd
    rw [objects_defaults_run (GoVal.map []) (GoVal.map (es.map (fun kv => (kv.1, GoVal.atom kv.2))))
        rfl rfl rfl rfl]
    obtain ⟨F, hF⟩ : ∃ F, goSize (GoVal.map []) +
        goSize (GoVal.map (es.map (fun kv => (kv.1, GoVal.atom kv.2)))) = F + 1 :=
      ⟨goSize (GoVal.map []) +
        goSize (GoVal.map (es.map (fun kv => (kv.1, GoVal.atom kv.2)))) - 1,
       by have := goSize_pos (GoVal.map []); omega⟩
    rw [hF, diff_map_step]
    have hnd2 : nodupKeys (es.map (fun kv => (kv.1, GoVal.atom kv.2))) := by
      unfold nodupKeys at hnd ⊢
      rw [List.pairwise_map]
      exact hnd
    have hpw2 : (es.map (fun kv => (kv.1, GoVal.atom kv.2))).Pairwise
        (fun x y => goEq y.1 x.1 = false) := by
      rw [List.pairwise_map]
      exact hnd.imp (fun h => by rw [goEq_comm]; exact h)
    have halign : alignMapKeys [] (es.map (fun kv => (kv.1, GoVal.atom kv.2))) =
        (es.map (fun kv => (kv.1, GoVal.atom kv.2))).map
          (fun kv => (kv.1, (⟨false, true⟩ : val))) := by
      show markAfter (insertBefore [] []) (es.map (fun kv => (kv.1, GoVal.atom kv.2))) = _
      rw [show insertBefore [] ([] : List (Atom × GoVal)) = [] from rfl]
      rw [markAfter_fresh _ [] (fun kv _ => rfl) hpw2]
      simp
    rw [show mapChildren [] (es.map (fun kv => (kv.1, GoVal.atom kv.2))) =
        es.map (fun kv =>
          (keySeg kv.1, none,
           lookupK (es.map (fun kv => (kv.1, GoVal.atom kv.2))) kv.1)) by
      rw [mapChildren, halign, List.map_map, List.map_map]
      rfl]
    rw [map_add_children F _ es []
        (fun kv hkv => lookupK_of_mem hnd2 (List.mem_map.mpr ⟨kv, hkv, rfl⟩))]
    simp only [List.nil_append, join_single]
  · intro es hnd
    rw [objects_defaults_run (GoVal.map (es.map (fun kv => (kv.1, GoVal.atom kv.2))))
        (GoVal.map []) rfl rfl rfl rfl]
    obtain ⟨F, hF⟩ : ∃ F,
        goSize (GoVal.map (es.map (fun kv => (kv.1, GoVal.atom kv.2)))) +
        goSize (GoVal.map []) = F + 1 :=
      ⟨goSize (GoVal.map (es.map (fun kv => (kv.1, GoVal.atom kv.2)))) +
        goSize (GoVal.map []) - 1,
       by have := goSize_pos (GoVal.map []); omega⟩
    rw [hF, diff_map_step]
    have hnd2 : nodupKeys (es.map (fun kv => (kv.1, GoVal.atom kv.2))) := by
      unfold nodupKeys at hnd ⊢
      rw [List.pairwise_map]
      exact hnd
    have hpw2 : (es.map (fun kv => (kv.1, GoVal.atom kv.2))).Pairwise
        (fun x y => goEq y.1 x.1 = false) := by
      rw [List.pairwise_map]
      exact hnd.imp (fun h => by rw [goEq_comm]; exact h)
    have halign : alignMapKeys (es.map (fun kv => (kv.1, GoVal.atom kv.2))) [] =
        (es.map (fun kv => (kv.1, GoVal.atom kv.2))).map
          (fun kv => (kv.1, (⟨true, false⟩ : val))) := by
      show markAfter (insertBefore [] (es.map (fun kv => (kv.1, GoVal.atom kv.2)))) [] = _
      rw [insertBefore_fresh _ [] (fun kv _ => rfl) hpw2]
      simp [markAfter]
    rw [show mapChildren (es.map (fun kv => (kv.1, GoVal.atom kv.2))) [] =
        es.map (fun kv =>
          (keySeg kv.1,
           lookupK (es.map (fun kv => (kv.1, GoVal.atom kv.2))) kv.1, none)) by
      rw [mapChildren, halign, List.map_map, List.map_map]
      rfl]
    rw [map_delete_children F _ es []
        (fun kv hkv => lookupK_of_mem hnd2 (List.mem_map.mpr ⟨kv, hkv, rfl⟩))]
    simp only [List.nil_append, join_single]

/-- C10 witness: the added direction at the singleton map {"yo":"hello"}. -/
theorem C10_witness :
    nodupKeys [((Atom.str ("yo")), Atom.str ("hello"))] ∧
    Objects (some (.map [])) (some (.map [(.str ("yo"), GoVal.atom (.str ("hello")))])) =
      .ok ["[\"yo\"] added \"hello\""] := by
  constructor
  · simp [nodupKeys]
  · exact C10_nil_map_as_empty.1 [((Atom.str ("yo")), Atom.str ("hello"))]
      (by simp [nodupKeys])

/-- The custom changed-template that references the unsupported
placeholder Apple.  text/template parses it successfully; only Execute
rejects the field. -/
def appleChange : String := "\x7b\x7b.Apple\x7d\x7d"

/-- Compiled form of appleChange. -/
def appleChunks : List Chunk := [Chunk.field ("Apple")]

theorem parse_appleChange : parseTemplate appleChange = some appleChunks := by decide

/-- C4 counterexample: a changed-template referencing the placeholder
Apple does not produce an error when before and after are equal: the
template parses at setup, no changed leaf is ever rendered, and the diff
returns an empty list with no error — contradicting the claim that a
TemplateError is returned even when no change exists. -/
theorem C4_counterexample :
    ObjectsF ⟨appleChange, "", ""⟩ (some (config true ("0.0.0") 30))
      (some (config true ("0.0.0") 30)) = .ok [] := rfl

/-- C4 amended: an unknown placeholder in the changed-template is only
detected when a changed leaf is actually rendered.  Whenever the default
diff of the same inputs emits nothing, the malformed template goes
unnoticed and the call succeeds with an empty list; when a change does
exist, the first render aborts the diff with the execution error and no
partial list. -/
theorem C4_unknown_placeholder_render_time :
    (∀ b a : Option GoVal, Objects b a = .ok [] →
        ObjectsF ⟨appleChange, "", ""⟩ b a = .ok []) ∧
    ObjectsF ⟨appleChange, "", ""⟩ (some (config true ("0.0.0") 30))
        (some (config true ("0.0.1") 15)) = .error (.execFail ("Apple")) := by
  constructor
  · intro b a h
    simp only [Objects, objects, compileTemplate, parse_DefaultChange, parse_DefaultAdd,
      parse_DefaultDelete, exceptBind_ok] at h
    cases e1 : isObj b a with
    | error e => rw [e1] at h; simp at h
    | ok u =>
        rw [e1] at h
        simp only [exceptBind_ok] at h
        cases e2 : sameKind b a with
        | error e => rw [e2] at h; simp at h
        | ok u2 =>
            rw [e2] at h
            simp only [exceptBind_ok] at h
            cases e3 : sameNamedType b a with
            | error e => rw [e3] at h; simp at h
            | ok u3 =>
                rw [e3] at h
                simp only [exceptBind_ok] at h
                have happle : ¬(appleChange = "") := by decide
                simp only [ObjectsF, if_neg happle, if_pos rfl, objects, compileTemplate,
                  parse_appleChange, parse_DefaultAdd, parse_DefaultDelete, e1, e2, e3,
                  exceptBind_ok]
                exact diff_ok_nil_tmpl _ defaultTmpl _ _ _ _ h
  · rfl

/-- C4 witness: the no-change clause applied at equal config records. -/
theorem C4_witness :
    Objects (some (config true ("0.0.0") 30)) (some (config true ("0.0.0") 30)) = .ok [] ∧
    ObjectsF ⟨appleChange, "", ""⟩ (some (config true ("0.0.0") 30))
      (some (config true ("0.0.0") 30)) = .ok [] :=
  ⟨rfl, C4_unknown_placeholder_render_time.1 _ _ rfl⟩

end GoDiff
